import Mathlib

/-!
Verification of the commit-log parsing and statistics engine of `cscan`
(`src/index.ts`), a CLI tool that turns `git log` output into commit
statistics.  Strings are modelled as lists of characters (`List Char`);
JavaScript string primitives (`split`, `trim`, `endsWith`, `match`) are
embedded as recursive functions with the same semantics on the ASCII
inputs the program manipulates.  JavaScript numbers holding millisecond
timestamps are modelled as `Int` (all values handled by the program stay
far below 2^53, where double arithmetic on integers is exact; the one
place the program leaves that range is discussed at the safe-integer
sentinel theorems).
-/

namespace Cscan

/-- Character class removed by `String.prototype.trim` (ASCII part). -/
def isJsSpace (c : Char) : Bool :=
  c = ' ' || c = '\t' || c = '\n' || c = '\r' || c = '\x0b' || c = '\x0c'

/-- Embedding of `String.prototype.trim`: drop whitespace from both ends. -/
def jsTrim (s : List Char) : List Char :=
  ((s.dropWhile isJsSpace).reverse.dropWhile isJsSpace).reverse

/-- Auxiliary scanner for `jsSplit`: walks the string accumulating the
current piece (reversed) and starts a new piece after each non-overlapping
occurrence of the (nonempty) separator, exactly like
`String.prototype.split` with a string separator.  The `fuel` argument
only makes the recursion structural; every step consumes at least one
character, so with `fuel = s.length` the zero-fuel branch is never taken. -/
def jsSplitGo (sep : List Char) : Nat → List Char → List Char → List (List Char)
  | _, [], acc => [acc.reverse]
  | 0, s, acc => [acc.reverse ++ s]
  | fuel + 1, c :: rest, acc =>
    if sep.isPrefixOf (c :: rest) then
      acc.reverse :: jsSplitGo sep fuel (rest.drop (sep.length - 1)) []
    else
      jsSplitGo sep fuel rest (c :: acc)

/-- Embedding of `String.prototype.split` with a nonempty string separator. -/
def jsSplit (sep s : List Char) : List (List Char) :=
  jsSplitGo sep s.length s []

/-- Last element of a nonempty list presented as head plus tail; models
`Array.prototype.pop` on the nonempty `stats` rest-array. -/
def lastOf (x : α) : List α → α
  | [] => x
  | y :: ys => lastOf y ys

/-- Value of a digit run, as computed by `parseInt` on a digit string. -/
def digitsToNat (run : List Char) : Nat :=
  run.foldl (fun n c => n * 10 + (c.toNat - 48)) 0

/-- Embedding of the regular-expression search `s.match(/(\d+) pat/)`:
finds, left to right, the first maximal digit run that is immediately
followed by the literal `pat`, and returns its numeric value.  (With a
greedy `\d+` and a pattern continuation that does not start with a digit,
the regex engine accepts exactly the leftmost such maximal run.) -/
def findNumBefore (pat : List Char) : List Char → Option Nat
  | [] => none
  | c :: cs =>
    if c.isDigit then
      if pat.isPrefixOf ((c :: cs).dropWhile Char.isDigit) then
        some (digitsToNat ((c :: cs).takeWhile Char.isDigit))
      else
        findNumBefore pat cs
    else
      findNumBefore pat cs

/-- Insertion count of a diffstat line: `changes.match(/(\d+) insertion/)`,
defaulting to `0` when there is no match. -/
def insertionsOf (line : List Char) : Nat :=
  (findNumBefore " insertion".data line).getD 0

/-- Deletion count of a diffstat line: `changes.match(/(\d+) deletion/)`,
defaulting to `0` when there is no match. -/
def deletionsOf (line : List Char) : Nat :=
  (findNumBefore " deletion".data line).getD 0

/-- Total changes extracted from the last diffstat line:
`insertions + deletions`. -/
def changesOfLine (line : List Char) : Nat :=
  insertionsOf line + deletionsOf line

/-- Commit record as produced by the parser.  The date string is kept
verbatim (`new Date(time)` never throws, so it cannot abort the parse;
its numeric value is the statistics engine's concern). -/
structure ParsedCommit where
  hash : List Char
  author : List Char
  message : List Char
  timeString : List Char
  changes : Nat
deriving DecidableEq, Repr

/-- Embedding of the per-block arrow function of the `commitStrings.map`
call: destructure the block's lines as
`[hash, email, message, time, ...stats]`, pop the last stats line, run the
two number extractions on it, and take the part of the email before the
first `@` as the author.  A block with fewer than five lines makes
`stats.pop()` return `undefined`, so the subsequent
`changes.match(...)` throws a `TypeError`; that abort is modelled as
`none` (a block of fewer than two lines already throws at `email.split`,
also `none`). -/
def parseBlock (block : List Char) : Option ParsedCommit :=
  match jsSplit ['\n'] block with
  | hash :: email :: message :: time :: s :: rest =>
    some
      { hash := hash
        author := (jsSplit ['@'] email).headD []
        message := message
        timeString := time
        changes := changesOfLine (lastOf s rest) }
  | _ => none

/-- Embedding of the whole parse: split the raw blob on the `.\n.`
sentinel, trim every piece, discard the first (empty) piece, and map the
block parser over the rest; a thrown `TypeError` in any block aborts the
whole `map`, modelled by `Option.mapM`. -/
def parseLog (blob : List Char) : Option (List ParsedCommit) :=
  (((jsSplit ('.' :: '\n' :: ['.']) blob).map jsTrim).drop 1).mapM parseBlock

/-- Block pieces of a blob, before the per-block parse (split, trim,
discard first fragment). -/
def blocksOf (blob : List Char) : List (List Char) :=
  ((jsSplit ('.' :: '\n' :: ['.']) blob).map jsTrim).drop 1

/-- Commit record as consumed by the statistics engine; `timestamp` is
`this.timestamp.valueOf()`, the date's millisecond value. -/
structure Commit where
  hash : List Char
  author : List Char
  message : List Char
  timestamp : Int
  changes : Nat
deriving DecidableEq, Repr

/-- Pairing of two log-adjacent commits with their signed millisecond
difference, the `CommitTimeDifference` record; the commit references are
`Option`s because the extreme trackers start out with `null` commits. -/
structure CTD where
  difference : Int
  firstCommit : Option Commit
  secondCommit : Option Commit
deriving DecidableEq, Repr

/-- JavaScript `Number.MIN_SAFE_INTEGER`, the initial value of
`maxDifference.difference`. -/
def MIN_SAFE_INTEGER : Int := -9007199254740991

/-- JavaScript `Number.MAX_SAFE_INTEGER`, the initial value of
`minDifference.difference`. -/
def MAX_SAFE_INTEGER : Int := 9007199254740991

/-- Accumulator state of the single `commits.forEach` pass: the author
map (a JavaScript `Map`, i.e. an insertion-ordered association list of
author to commit count and summed changes), the meaningful-message
counter, the unique-message `Set` (insertion-ordered, duplicates
ignored), the pushed time differences, and the two extreme trackers. -/
structure ScanState where
  authors : List (List Char × Nat × Nat)
  meaningfulMessages : Nat
  uniqueMessages : List (List Char)
  timeDifferences : List Int
  maxDifference : CTD
  minDifference : CTD
deriving DecidableEq, Repr

/-- Embedding of `Map.prototype.get`. -/
def mapGet (m : List (List Char × Nat × Nat)) (k : List Char) : Option (Nat × Nat) :=
  match m with
  | [] => none
  | (k', v) :: rest => if k' = k then some v else mapGet rest k

/-- Embedding of `Map.prototype.set`: an existing key is updated in
place, a new key is appended, preserving insertion order. -/
def mapSet (m : List (List Char × Nat × Nat)) (k : List Char) (v : Nat × Nat) :
    List (List Char × Nat × Nat) :=
  match m with
  | [] => [(k, v)]
  | (k', v') :: rest => if k' = k then (k, v) :: rest else (k', v') :: mapSet rest k v

/-- State before the pass: empty collections and the two sentinel
trackers with `null` commit references. -/
def initialState : ScanState :=
  { authors := []
    meaningfulMessages := 0
    uniqueMessages := []
    timeDifferences := []
    maxDifference := ⟨MIN_SAFE_INTEGER, none, none⟩
    minDifference := ⟨MAX_SAFE_INTEGER, none, none⟩ }

/-- Body of the `forEach` callback at one commit, given
`commits[idx + 1]` (which is `undefined`, here `none`, at the last
index): author rollup, message metrics, and — when a next commit exists —
pushing the signed difference and the two strict-inequality extreme
updates. -/
def scanStep (threshold : Nat) (st : ScanState) (c : Commit) (next? : Option Commit) :
    ScanState :=
  let authors :=
    match mapGet st.authors c.author with
    | some (cnt, ch) => mapSet st.authors c.author (cnt + 1, ch + c.changes)
    | none => mapSet st.authors c.author (1, c.changes)
  let meaningful :=
    if threshold < c.message.length then st.meaningfulMessages + 1
    else st.meaningfulMessages
  let uniques :=
    if c.message ∈ st.uniqueMessages then st.uniqueMessages
    else st.uniqueMessages ++ [c.message]
  match next? with
  | none =>
    { st with
        authors := authors
        meaningfulMessages := meaningful
        uniqueMessages := uniques }
  | some next =>
    let d := c.timestamp - next.timestamp
    { authors := authors
      meaningfulMessages := meaningful
      uniqueMessages := uniques
      timeDifferences := st.timeDifferences ++ [d]
      maxDifference :=
        if st.maxDifference.difference < d then ⟨d, some c, some next⟩
        else st.maxDifference
      minDifference :=
        if d < st.minDifference.difference then ⟨d, some c, some next⟩
        else st.minDifference }

/-- Recursion over the commit list driving `scanStep`; the head of the
remaining list after the current commit is exactly `commits[idx + 1]`. -/
def scanGo (threshold : Nat) (st : ScanState) : List Commit → ScanState
  | [] => st
  | c :: rest => scanGo threshold (scanStep threshold st c rest.head?) rest

/-- The full single aggregation pass (`commits.forEach(...)`). -/
def scanCommits (threshold : Nat) (commits : List Commit) : ScanState :=
  scanGo threshold initialState commits

/-- Signed adjacent-pair differences in original log order:
`timestamp[i] - timestamp[i + 1]` for `i` in `[0, n-2]`. -/
def adjacentDiffs : List Commit → List Int
  | c :: next :: rest => (c.timestamp - next.timestamp) :: adjacentDiffs (next :: rest)
  | _ => []

/-- Adjacent pairs of the commit list in original log order. -/
def adjacentPairs : List Commit → List (Commit × Commit)
  | c :: next :: rest => (c, next) :: adjacentPairs (next :: rest)
  | _ => []

/-- Signed difference of one adjacent pair. -/
def pairDiff (p : Commit × Commit) : Int :=
  p.1.timestamp - p.2.timestamp

/-- Update step of the `maxDifference` tracker
(`if (difference > maxDifference.difference) ...`). -/
def maxUpd (b : CTD) (p : Commit × Commit) : CTD :=
  if b.difference < pairDiff p then ⟨pairDiff p, some p.1, some p.2⟩ else b

/-- Update step of the `minDifference` tracker
(`if (difference < minDifference.difference) ...`). -/
def minUpd (b : CTD) (p : Commit × Commit) : CTD :=
  if pairDiff p < b.difference then ⟨pairDiff p, some p.1, some p.2⟩ else b

/-- Embedding of `commits.map(c => c.changes).reduce((a, b) => a + b)`:
`reduce` without an initial value throws on an empty array (`none`) and
left-folds the tail onto the head otherwise. -/
def totalChanges (commits : List Commit) : Option Nat :=
  match commits.map Commit.changes with
  | [] => none
  | x :: xs => some (xs.foldl (· + ·) x)

/-- Strict less-than on character lists by code unit, the comparison the
JavaScript default sort comparator applies to the stringified elements. -/
def charListLt : List Char → List Char → Bool
  | [], [] => false
  | [], _ :: _ => true
  | _ :: _, [] => false
  | x :: xs, y :: ys =>
    if x.toNat < y.toNat then true
    else if y.toNat < x.toNat then false
    else charListLt xs ys

/-- Insert into an already-sorted list, placing the new element after all
elements it is not strictly below: a stable insertion. -/
def insertBy (lt : α → α → Bool) (x : α) : List α → List α
  | [] => [x]
  | y :: ys => if lt x y then x :: y :: ys else y :: insertBy lt x ys

/-- Stable sort by a strict comparator.  `Array.prototype.sort` with a
consistent comparator is specified to be a stable sort, so its result
coincides with this insertion sort. -/
def sortBy (lt : α → α → Bool) : List α → List α
  | [] => []
  | x :: xs => insertBy lt x (sortBy lt xs)

/-- Comparator actually used by `timeDifferences.sort()`: the call passes
no comparator, so JavaScript compares the elements' decimal string forms
by UTF-16 code units (integer `Number`s of magnitude below 1e21 stringify
to plain decimal, with a leading `-` for negatives, as `toString` on
`Int` does). -/
def jsDefaultLt (a b : Int) : Bool :=
  charListLt (toString a).data (toString b).data

/-- Numeric strict comparator, for the ascending sort the specification
describes. -/
def intLt (a b : Int) : Bool :=
  a < b

/-- Median selection of `medianCommitTime` on an already-sorted list:
`midpoint = Math.ceil(n / 2)`; for even `n` the average of the elements
at positions `midpoint` and `midpoint - 1`, for odd `n` the element at
`midpoint - 1` (0-indexed).  The result is exact rational arithmetic;
double arithmetic on these magnitudes is exact up to the final halving,
which JavaScript also performs exactly. -/
def medianOf (sorted : List Int) : ℚ :=
  let midpoint := (sorted.length + 1) / 2
  if sorted.length % 2 = 0 then
    ((sorted.getD midpoint 0 : ℚ) + (sorted.getD (midpoint - 1) 0 : ℚ)) / 2
  else
    (sorted.getD (midpoint - 1) 0 : ℚ)

/-- Embedding of the program's median computation: `timeDifferences.sort()`
(default comparator!) followed by the midpoint selection. -/
def medianCommitTime (diffs : List Int) : ℚ :=
  medianOf (sortBy jsDefaultLt diffs)

/-- Modelled from the spec's words for comparison: the same midpoint
selection applied after sorting the differences ascending numerically. -/
def medianPerSpec (diffs : List Int) : ℚ :=
  medianOf (sortBy intLt diffs)

/-- Embedding of `String.prototype.endsWith`. -/
def jsEndsWith (s pat : List Char) : Bool :=
  pat.reverse.isPrefixOf s.reverse

/-- Embedding of the CSV output-path fixup: append `commits.csv` when the
supplied path ends with the platform path separator, then append `.csv`
when the (possibly extended) path does not already end with it. -/
def outFilePath (sep : List Char) (out : List Char) : List Char :=
  let f1 := if jsEndsWith out sep then out ++ "commits.csv".data else out
  if jsEndsWith f1 ".csv".data then f1 else f1 ++ ".csv".data

/-- Steps of the top-level script, in the order they can execute. -/
inductive Step where
  | retrieveLog
  | parseStep
  | conflictCheck
  | csvExport
  | historyCheck
  | statsPass
  | report
deriving DecidableEq, Repr

/-- Ways the run can terminate with a failure exit. -/
inductive RunError where
  | LogUnavailable
  | InvalidCommitData
  | ConflictingOptions
  | InsufficientHistory
deriving DecidableEq, Repr

/-- Runtime configuration relevant to control flow. -/
structure Config where
  verbose : Bool
  concise : Bool
  csv : Bool
deriving DecidableEq, Repr

/-- Continuation of the top-level script once the raw blob has been
parsed (or the parse has thrown): the verbose/concise conflict check, the
CSV branch (which exits), the minimum-history check, then the aggregation
pass and report, in source statement order.  Step payloads are elided;
the parse abort (an uncaught `TypeError` on a malformed block) exits the
process, modelled as `InvalidCommitData`. -/
def runAfterParse (cfg : Config) (parsed : Option (List ParsedCommit)) :
    List Step × Except RunError Unit :=
  match parsed with
  | none =>
    ([Step.retrieveLog, Step.parseStep], Except.error RunError.InvalidCommitData)
  | some commits =>
    if cfg.verbose && cfg.concise then
      ([Step.retrieveLog, Step.parseStep, Step.conflictCheck],
        Except.error RunError.ConflictingOptions)
    else if cfg.csv then
      ([Step.retrieveLog, Step.parseStep, Step.conflictCheck, Step.csvExport],
        Except.ok ())
    else if commits.length < 2 then
      ([Step.retrieveLog, Step.parseStep, Step.conflictCheck, Step.historyCheck],
        Except.error RunError.InsufficientHistory)
    else
      ([Step.retrieveLog, Step.parseStep, Step.conflictCheck, Step.historyCheck,
          Step.statsPass, Step.report],
        Except.ok ())

/-- Embedding of the top-level control flow of the script, recording the
steps reached in order.  `gitLog?` is the collaborator's result (`none`
when `git log` fails).  Statement order follows the source exactly: log
retrieval, parsing of the raw blob, then the checks of
`runAfterParse`. -/
def runProgram (cfg : Config) (gitLog? : Option (List Char)) :
    List Step × Except RunError Unit :=
  match gitLog? with
  | none => ([Step.retrieveLog], Except.error RunError.LogUnavailable)
  | some blob => runAfterParse cfg (parseLog blob)

/-- Uniqueness-set insertion: adding an element already present is a
no-op, otherwise it is appended (the behaviour of `Set.prototype.add`). -/
def insertU (acc : List (List Char)) (m : List Char) : List (List Char) :=
  if m ∈ acc then acc else acc ++ [m]

/-! Helper lemmas relating the single `forEach` pass to componentwise
descriptions of its accumulators. -/

theorem scanGo_timeDifferences (t : Nat) (st : ScanState) (l : List Commit) :
    (scanGo t st l).timeDifferences = st.timeDifferences ++ adjacentDiffs l := by
  induction l generalizing st with
  | nil => simp [scanGo, adjacentDiffs]
  | cons c rest ih =>
    cases rest with
    | nil => simp [scanGo, scanStep, adjacentDiffs]
    | cons n r =>
      rw [scanGo, ih]
      simp [scanStep, adjacentDiffs]

theorem scanGo_meaningful (t : Nat) (st : ScanState) (l : List Commit) :
    (scanGo t st l).meaningfulMessages =
      st.meaningfulMessages + (l.filter fun c => t < c.message.length).length := by
  induction l generalizing st with
  | nil => simp [scanGo]
  | cons c rest ih =>
    cases rest with
    | nil =>
      by_cases h : t < c.message.length <;>
        simp [scanGo, scanStep, List.filter, h]
    | cons n r =>
      rw [scanGo, ih]
      by_cases h : t < c.message.length <;>
        simp [scanStep, List.filter, h] <;> omega

theorem scanGo_unique (t : Nat) (st : ScanState) (l : List Commit) :
    (scanGo t st l).uniqueMessages =
      List.foldl insertU st.uniqueMessages (l.map Commit.message) := by
  induction l generalizing st with
  | nil => simp [scanGo]
  | cons c rest ih =>
    cases rest with
    | nil => simp [scanGo, scanStep, insertU]
    | cons n r =>
      rw [scanGo, ih]
      simp [scanStep, insertU]

theorem scanGo_max (t : Nat) (st : ScanState) (l : List Commit) :
    (scanGo t st l).maxDifference =
      List.foldl maxUpd st.maxDifference (adjacentPairs l) := by
  induction l generalizing st with
  | nil => simp [scanGo, adjacentPairs]
  | cons c rest ih =>
    cases rest with
    | nil => simp [scanGo, scanStep, adjacentPairs]
    | cons n r =>
      rw [scanGo, ih]
      simp [scanStep, adjacentPairs, maxUpd, pairDiff]

theorem scanGo_min (t : Nat) (st : ScanState) (l : List Commit) :
    (scanGo t st l).minDifference =
      List.foldl minUpd st.minDifference (adjacentPairs l) := by
  induction l generalizing st with
  | nil => simp [scanGo, adjacentPairs]
  | cons c rest ih =>
    cases rest with
    | nil => simp [scanGo, scanStep, adjacentPairs]
    | cons n r =>
      rw [scanGo, ih]
      simp [scanStep, adjacentPairs, minUpd, pairDiff]

theorem mem_foldl_insertU (acc ms : List (List Char)) (x : List Char) :
    x ∈ List.foldl insertU acc ms ↔ x ∈ acc ∨ x ∈ ms := by
  induction ms generalizing acc with
  | nil => simp
  | cons m ms' ih =>
    rw [List.foldl_cons, ih]
    by_cases h : m ∈ acc
    · simp only [insertU, if_pos h, List.mem_cons]
      constructor
      · rintro (hx | hx) <;> tauto
      · rintro (hx | hx | hx)
        · tauto
        · exact Or.inl (hx ▸ h)
        · tauto
    · simp only [insertU, if_neg h, List.mem_append, List.mem_singleton, List.mem_cons]
      tauto

theorem adjacentPairs_eq_zip (l : List Commit) : adjacentPairs l = l.zip l.tail := by
  match l with
  | [] => rfl
  | [c] => rfl
  | c :: n :: r =>
    rw [adjacentPairs, adjacentPairs_eq_zip (n :: r)]
    rfl

theorem adjacentDiffs_eq_map (l : List Commit) :
    adjacentDiffs l = (adjacentPairs l).map pairDiff := by
  match l with
  | [] => rfl
  | [c] => rfl
  | c :: n :: r =>
    rw [adjacentDiffs, adjacentPairs, List.map_cons, adjacentDiffs_eq_map (n :: r)]
    rfl

theorem adjacentPairs_length (l : List Commit) :
    (adjacentPairs l).length = l.length - 1 := by
  rw [adjacentPairs_eq_zip]
  simp

theorem adjacentPairs_getElem (l : List Commit) (i : Nat)
    (h : i < (adjacentPairs l).length) :
    ∃ h1 : i + 1 < l.length,
      (adjacentPairs l)[i] = (l[i], l[i + 1]) := by
  have hlen : i + 1 < l.length := by
    have := adjacentPairs_length l
    omega
  refine ⟨hlen, ?_⟩
  have htail : i < l.tail.length := by simp; omega
  have h' : i < (l.zip l.tail).length := by
    rw [← adjacentPairs_eq_zip]
    exact h
  calc (adjacentPairs l)[i] = (l.zip l.tail)[i] := by
        congr 1
        exact adjacentPairs_eq_zip l
    _ = (l[i], l.tail[i]) := List.getElem_zip
    _ = (l[i], l[i + 1]) := by
        rw [List.getElem_tail]

theorem foldl_maxUpd_id (b : CTD) (ps : List (Commit × Commit))
    (h : ∀ p ∈ ps, pairDiff p ≤ b.difference) :
    List.foldl maxUpd b ps = b := by
  induction ps with
  | nil => rfl
  | cons p rest ih =>
    rw [List.foldl_cons, maxUpd,
      if_neg (not_lt.mpr (h p (List.mem_cons_self p rest)))]
    exact ih fun q hq => h q (List.mem_cons_of_mem p hq)

theorem foldl_minUpd_id (b : CTD) (ps : List (Commit × Commit))
    (h : ∀ p ∈ ps, b.difference ≤ pairDiff p) :
    List.foldl minUpd b ps = b := by
  induction ps with
  | nil => rfl
  | cons p rest ih =>
    rw [List.foldl_cons, minUpd,
      if_neg (not_lt.mpr (h p (List.mem_cons_self p rest)))]
    exact ih fun q hq => h q (List.mem_cons_of_mem p hq)

theorem foldl_maxUpd_spec (ps : List (Commit × Commit)) (b : CTD)
    (h : ∃ p ∈ ps, b.difference < pairDiff p) :
    ∃ i, ∃ hi : i < ps.length,
      List.foldl maxUpd b ps =
        ⟨pairDiff ps[i], some (ps[i]).1, some (ps[i]).2⟩ ∧
      b.difference < pairDiff ps[i] ∧
      (∀ p ∈ ps, pairDiff p ≤ pairDiff ps[i]) ∧
      ∀ j, (hj : j < ps.length) → j < i → pairDiff ps[j] < pairDiff ps[i] := by
  induction ps generalizing b with
  | nil => simp at h
  | cons p rest ih =>
    rw [List.foldl_cons]
    by_cases hbp : b.difference < pairDiff p
    · rw [maxUpd, if_pos hbp]
      by_cases himp : ∃ q ∈ rest, pairDiff p < pairDiff q
      · obtain ⟨i', hi', heq, hlt, hub, hfirst⟩ := ih ⟨pairDiff p, some p.1, some p.2⟩ himp
        refine ⟨i' + 1, by simpa using Nat.succ_lt_succ hi', ?_, ?_, ?_, ?_⟩
        · simpa using heq
        · simpa using hbp.trans hlt
        · intro q hq
          rcases List.mem_cons.mp hq with rfl | hq'
          · simpa using le_of_lt hlt
          · simpa using hub q hq'
        · intro j hj hji
          match j with
          | 0 => simpa using hlt
          | j' + 1 =>
            have := hfirst j' (by simpa using hj) (by omega)
            simpa using this
      · push_neg at himp
        rw [foldl_maxUpd_id ⟨pairDiff p, some p.1, some p.2⟩ rest himp]
        refine ⟨0, by simp, by simp, by simpa using hbp, ?_, by omega⟩
        intro q hq
        rcases List.mem_cons.mp hq with rfl | hq'
        · simp
        · simpa using himp q hq'
    · rw [maxUpd, if_neg hbp]
      have hrest : ∃ q ∈ rest, b.difference < pairDiff q := by
        obtain ⟨q, hq, hql⟩ := h
        rcases List.mem_cons.mp hq with rfl | hq'
        · exact absurd hql hbp
        · exact ⟨q, hq', hql⟩
      obtain ⟨i', hi', heq, hlt, hub, hfirst⟩ := ih b hrest
      have hple : pairDiff p ≤ b.difference := not_lt.mp hbp
      refine ⟨i' + 1, by simpa using Nat.succ_lt_succ hi', ?_, ?_, ?_, ?_⟩
      · simpa using heq
      · simpa using hlt
      · intro q hq
        rcases List.mem_cons.mp hq with rfl | hq'
        · simpa using hple.trans (le_of_lt hlt)
        · simpa using hub q hq'
      · intro j hj hji
        match j with
        | 0 => simpa using lt_of_le_of_lt hple hlt
        | j' + 1 =>
          have := hfirst j' (by simpa using hj) (by omega)
          simpa using this

theorem foldl_minUpd_spec (ps : List (Commit × Commit)) (b : CTD)
    (h : ∃ p ∈ ps, pairDiff p < b.difference) :
    ∃ i, ∃ hi : i < ps.length,
      List.foldl minUpd b ps =
        ⟨pairDiff ps[i], some (ps[i]).1, some (ps[i]).2⟩ ∧
      pairDiff ps[i] < b.difference ∧
      (∀ p ∈ ps, pairDiff ps[i] ≤ pairDiff p) ∧
      ∀ j, (hj : j < ps.length) → j < i → pairDiff ps[i] < pairDiff ps[j] := by
  induction ps generalizing b with
  | nil => simp at h
  | cons p rest ih =>
    rw [List.foldl_cons]
    by_cases hbp : pairDiff p < b.difference
    · rw [minUpd, if_pos hbp]
      by_cases himp : ∃ q ∈ rest, pairDiff q < pairDiff p
      · obtain ⟨i', hi', heq, hlt, hub, hfirst⟩ := ih ⟨pairDiff p, some p.1, some p.2⟩ himp
        refine ⟨i' + 1, by simpa using Nat.succ_lt_succ hi', ?_, ?_, ?_, ?_⟩
        · simpa using heq
        · simpa using hlt.trans hbp
        · intro q hq
          rcases List.mem_cons.mp hq with rfl | hq'
          · simpa using le_of_lt hlt
          · simpa using hub q hq'
        · intro j hj hji
          match j with
          | 0 => simpa using hlt
          | j' + 1 =>
            have := hfirst j' (by simpa using hj) (by omega)
            simpa using this
      · push_neg at himp
        rw [foldl_minUpd_id ⟨pairDiff p, some p.1, some p.2⟩ rest himp]
        refine ⟨0, by simp, by simp, by simpa using hbp, ?_, by omega⟩
        intro q hq
        rcases List.mem_cons.mp hq with rfl | hq'
        · simp
        · simpa using himp q hq'
    · rw [minUpd, if_neg hbp]
      have hrest : ∃ q ∈ rest, pairDiff q < b.difference := by
        obtain ⟨q, hq, hql⟩ := h
        rcases List.mem_cons.mp hq with rfl | hq'
        · exact absurd hql hbp
        · exact ⟨q, hq', hql⟩
      obtain ⟨i', hi', heq, hlt, hub, hfirst⟩ := ih b hrest
      have hple : b.difference ≤ pairDiff p := not_lt.mp hbp
      refine ⟨i' + 1, by simpa using Nat.succ_lt_succ hi', ?_, ?_, ?_, ?_⟩
      · simpa using heq
      · simpa using hlt
      · intro q hq
        rcases List.mem_cons.mp hq with rfl | hq'
        · simpa using (le_of_lt hlt).trans hple
        · simpa using hub q hq'
      · intro j hj hji
        match j with
        | 0 => simpa using lt_of_lt_of_le hlt hple
        | j' + 1 =>
          have := hfirst j' (by simpa using hj) (by omega)
          simpa using this

theorem nodup_foldl_insertU (acc ms : List (List Char)) (h : acc.Nodup) :
    (List.foldl insertU acc ms).Nodup := by
  induction ms generalizing acc with
  | nil => simpa using h
  | cons m ms' ih =>
    rw [List.foldl_cons]
    apply ih
    by_cases hm : m ∈ acc
    · simpa [insertU, hm] using h
    · rw [insertU, if_neg hm, List.nodup_append]
      refine ⟨h, List.nodup_singleton m, ?_⟩
      intro a ha hma
      simp only [List.mem_singleton] at hma
      exact hm (hma ▸ ha)

theorem exists_five_cons {α : Type} (l : List α) (h : 5 ≤ l.length) :
    ∃ a b c d e rest, l = a :: b :: c :: d :: e :: rest := by
  match l with
  | a :: b :: c :: d :: e :: rest => exact ⟨a, b, c, d, e, rest, rfl⟩
  | [] | [_] | [_, _] | [_, _, _] | [_, _, _, _] => simp at h

theorem parseBlock_shape (block l0 l1 l2 l3 l4 : List Char) (rest : List (List Char))
    (hsplit : jsSplit ['\n'] block = l0 :: l1 :: l2 :: l3 :: l4 :: rest) :
    parseBlock block =
      some ⟨l0, (jsSplit ['@'] l1).headD [], l2, l3, changesOfLine (lastOf l4 rest)⟩ := by
  rw [parseBlock, hsplit]

theorem parseBlock_isSome_of_five (b : List Char) (h : 5 ≤ (jsSplit ['\n'] b).length) :
    (parseBlock b).isSome = true := by
  obtain ⟨l0, l1, l2, l3, l4, rest, hsplit⟩ := exists_five_cons _ h
  rw [parseBlock_shape b l0 l1 l2 l3 l4 rest hsplit]
  rfl

theorem mapM_isSome {α β : Type} (f : α → Option β) (l : List α)
    (h : ∀ a ∈ l, (f a).isSome = true) :
    ∃ bs, l.mapM f = some bs ∧ bs.length = l.length ∧
      ∀ i, (hi : i < l.length) → (hbi : i < bs.length) →
        f (l[i]) = some (bs[i]) := by
  induction l with
  | nil =>
    refine ⟨[], by rfl, rfl, ?_⟩
    intro i hi
    simp at hi
  | cons a l' ih =>
    obtain ⟨b, hb⟩ := Option.isSome_iff_exists.mp (h a (List.mem_cons_self a l'))
    obtain ⟨bs', hbs', hlen, hpt⟩ := ih fun x hx => h x (List.mem_cons_of_mem a hx)
    refine ⟨b :: bs', ?_, by simpa using hlen, ?_⟩
    · rw [List.mapM_cons, hb, hbs']
      rfl
    · intro i hi hbi
      match i with
      | 0 => simpa using hb
      | i' + 1 =>
        simpa using hpt i' (by simpa using hi) (by simpa using hbi)

theorem parseLog_eq_mapM (blob : List Char) :
    parseLog blob = (blocksOf blob).mapM parseBlock := rfl

theorem dropWhile_append_of_all {α : Type} (p : α → Bool) (l1 l2 : List α)
    (h : ∀ x ∈ l1, p x = true) :
    (l1 ++ l2).dropWhile p = l2.dropWhile p := by
  induction l1 with
  | nil => rfl
  | cons a t ih =>
    rw [List.cons_append, List.dropWhile_cons,
      if_pos (h a (List.mem_cons_self a t))]
    exact ih fun x hx => h x (List.mem_cons_of_mem a hx)

theorem takeWhile_append_of_all {α : Type} (p : α → Bool) (l1 l2 : List α)
    (h : ∀ x ∈ l1, p x = true) :
    (l1 ++ l2).takeWhile p = l1 ++ l2.takeWhile p := by
  induction l1 with
  | nil => rfl
  | cons a t ih =>
    rw [List.cons_append, List.takeWhile_cons,
      if_pos (h a (List.mem_cons_self a t)), ih fun x hx => h x (List.mem_cons_of_mem a hx)]
    rfl

theorem findNumBefore_cons (pat : List Char) (c : Char) (cs : List Char) :
    findNumBefore pat (c :: cs) =
      if c.isDigit then
        if pat.isPrefixOf ((c :: cs).dropWhile Char.isDigit) then
          some (digitsToNat ((c :: cs).takeWhile Char.isDigit))
        else findNumBefore pat cs
      else findNumBefore pat cs := rfl

theorem findNumBefore_isSome_of_occurrence (p0 : Char) (prest : List Char)
    (hd : p0.isDigit = false) (pre run rest : List Char)
    (hrun : run ≠ []) (hdig : ∀ x ∈ run, x.isDigit = true) :
    (findNumBefore (p0 :: prest) (pre ++ (run ++ ((p0 :: prest) ++ rest)))).isSome
      = true := by
  induction pre with
  | nil =>
    match run, hrun with
    | r0 :: rtail, _ =>
      have hr0 : r0.isDigit = true := hdig r0 (List.mem_cons_self r0 rtail)
      rw [List.nil_append, List.cons_append, findNumBefore_cons, if_pos hr0]
      have hdrop : ((r0 :: rtail) ++ ((p0 :: prest) ++ rest)).dropWhile Char.isDigit
          = (p0 :: prest) ++ rest := by
        rw [dropWhile_append_of_all Char.isDigit (r0 :: rtail) _ hdig,
          List.cons_append, List.dropWhile_cons, if_neg (by simp [hd])]
      rw [List.cons_append] at hdrop
      have hpf : (p0 :: prest).isPrefixOf ((p0 :: prest) ++ rest) = true :=
        List.isPrefixOf_iff_prefix.mpr ⟨rest, rfl⟩
      rw [hdrop, if_pos hpf]
      rfl
  | cons c pre' ih =>
    rw [List.cons_append, findNumBefore_cons]
    by_cases hc : c.isDigit = true
    · rw [if_pos hc]
      by_cases hp : (p0 :: prest).isPrefixOf
          ((c :: (pre' ++ (run ++ ((p0 :: prest) ++ rest)))).dropWhile Char.isDigit)
            = true
      · rw [if_pos hp]
        rfl
      · rw [if_neg hp]
        exact ih
    · rw [if_neg (by simpa using hc)]
      exact ih

theorem findNumBefore_occurrence_of_isSome (pat s : List Char)
    (h : (findNumBefore pat s).isSome = true) :
    ∃ pre run rest, s = pre ++ (run ++ (pat ++ rest)) ∧ run ≠ [] ∧
      ∀ x ∈ run, x.isDigit = true := by
  induction s with
  | nil => simp [findNumBefore] at h
  | cons c cs ih =>
    rw [findNumBefore_cons] at h
    by_cases hc : c.isDigit = true
    · rw [if_pos hc] at h
      by_cases hp : pat.isPrefixOf ((c :: cs).dropWhile Char.isDigit) = true
      · obtain ⟨rest, hrest⟩ := List.isPrefixOf_iff_prefix.mp hp
        refine ⟨[], (c :: cs).takeWhile Char.isDigit, rest, ?_, ?_, ?_⟩
        · rw [List.nil_append, hrest, List.takeWhile_append_dropWhile]
        · simp [List.takeWhile_cons, hc]
        · intro x hx
          exact List.mem_takeWhile_imp hx
      · rw [if_neg hp] at h
        obtain ⟨pre, run, rest, heq, hrun, hdig⟩ := ih h
        exact ⟨c :: pre, run, rest, by rw [heq]; rfl, hrun, hdig⟩
    · rw [if_neg (by simpa using hc)] at h
      obtain ⟨pre, run, rest, heq, hrun, hdig⟩ := ih h
      exact ⟨c :: pre, run, rest, by rw [heq]; rfl, hrun, hdig⟩

theorem jsEndsWith_append (a b pat : List Char) (h : jsEndsWith b pat = true) :
    jsEndsWith (a ++ b) pat = true := by
  rw [jsEndsWith, List.isPrefixOf_iff_prefix] at h ⊢
  rw [List.reverse_append]
  exact h.trans (List.prefix_append _ _)

theorem foldl_add_eq_sum (x : Nat) (xs : List Nat) :
    xs.foldl (· + ·) x = x + xs.sum := by
  induction xs generalizing x with
  | nil => simp
  | cons y ys ih =>
    rw [List.foldl_cons, ih, List.sum_cons]
    omega

theorem totalChanges_cons (c : Commit) (rest : List Commit) :
    totalChanges (c :: rest) =
      some ((rest.map Commit.changes).foldl (· + ·) c.changes) := rfl

/-! Claim theorems. -/

/-- C7: `meaningfulMessages` counts exactly the commits whose message
character length strictly exceeds the threshold (strict `>`, illustrated
by threshold 10 on message lengths 5, 11, 10 counting only one commit),
and `uniqueMessages` has one entry per distinct message string under
exact equality, so its size is the number of distinct messages. -/
theorem C7_message_metrics (t : Nat) (commits : List Commit) :
    (scanCommits t commits).meaningfulMessages =
      (commits.filter fun c => t < c.message.length).length ∧
    (scanCommits t commits).uniqueMessages.length =
      (commits.map Commit.message).toFinset.card ∧
    (scanCommits 10 [⟨[], [], List.replicate 5 'a', 0, 0⟩,
        ⟨[], [], List.replicate 11 'a', 0, 0⟩,
        ⟨[], [], List.replicate 10 'a', 0, 0⟩]).meaningfulMessages = 1 := by
  refine ⟨?_, ?_, by decide⟩
  · rw [scanCommits, scanGo_meaningful]
    simp [initialState]
  · rw [scanCommits, scanGo_unique]
    have hnd :
        (List.foldl insertU initialState.uniqueMessages
          (commits.map Commit.message)).Nodup :=
      nodup_foldl_insertU _ _ (by simp [initialState])
    rw [← List.toFinset_card_of_nodup hnd]
    congr 1
    ext x
    simp [mem_foldl_insertU, initialState]

/-- C7 witness: the metrics at a concrete commit list. -/
theorem C7_message_metrics_witness :
    (scanCommits 3 [⟨[], [], ['f', 'i', 'x'], 0, 0⟩,
        ⟨[], [], ['f', 'i', 'x'], 0, 0⟩,
        ⟨[], [], ['f', 'e', 'a', 't', 'x'], 5, 2⟩]).meaningfulMessages =
      (([⟨[], [], ['f', 'i', 'x'], 0, 0⟩,
        ⟨[], [], ['f', 'i', 'x'], 0, 0⟩,
        ⟨[], [], ['f', 'e', 'a', 't', 'x'], 5, 2⟩] : List Commit).filter
          fun c => 3 < c.message.length).length ∧
    (scanCommits 3 [⟨[], [], ['f', 'i', 'x'], 0, 0⟩,
        ⟨[], [], ['f', 'i', 'x'], 0, 0⟩,
        ⟨[], [], ['f', 'e', 'a', 't', 'x'], 5, 2⟩]).uniqueMessages.length =
      (([⟨[], [], ['f', 'i', 'x'], 0, 0⟩,
        ⟨[], [], ['f', 'i', 'x'], 0, 0⟩,
        ⟨[], [], ['f', 'e', 'a', 't', 'x'], 5, 2⟩] : List Commit).map
          Commit.message).toFinset.card :=
  ⟨(C7_message_metrics 3 _).1, (C7_message_metrics 3 _).2.1⟩

/-- C10: the CSV output path always ends in `.csv`: a path ending in the
platform separator gets `commits.csv` appended, a path not ending in
`.csv` gets `.csv` appended, and a path already ending in `.csv` is used
unchanged. -/
theorem C10_outfile_path (sep p : List Char) :
    jsEndsWith (outFilePath sep p) ".csv".data = true ∧
    (jsEndsWith p sep = true → outFilePath sep p = p ++ "commits.csv".data) ∧
    (jsEndsWith p sep = false → jsEndsWith p ".csv".data = true →
      outFilePath sep p = p) ∧
    (jsEndsWith p sep = false → jsEndsWith p ".csv".data = false →
      outFilePath sep p = p ++ ".csv".data) := by
  have hcommits : jsEndsWith (p ++ "commits.csv".data) ".csv".data = true :=
    jsEndsWith_append _ _ _ (by decide)
  refine ⟨?_, ?_, ?_, ?_⟩
  · simp only [outFilePath]
    by_cases h1 : jsEndsWith p sep = true
    · rw [if_pos h1, if_pos hcommits]
      exact hcommits
    · rw [if_neg h1]
      by_cases h2 : jsEndsWith p ".csv".data = true
      · rw [if_pos h2]
        exact h2
      · rw [if_neg h2]
        exact jsEndsWith_append _ _ _ (by decide)
  · intro h1
    simp only [outFilePath]
    rw [if_pos h1, if_pos hcommits]
  · intro h1 h2
    simp only [outFilePath]
    rw [if_neg (show ¬jsEndsWith p sep = true by simp [h1]), if_pos h2]
  · intro h1 h2
    simp only [outFilePath]
    rw [if_neg (show ¬jsEndsWith p sep = true by simp [h1]),
      if_neg (show ¬jsEndsWith p ".csv".data = true by simp [h2])]

/-- C10 witness: the three path shapes at concrete inputs. -/
theorem C10_outfile_path_witness :
    outFilePath "/".data "out/".data = "out/".data ++ "commits.csv".data ∧
    outFilePath "/".data "data.csv".data = "data.csv".data ∧
    outFilePath "/".data "data".data = "data".data ++ ".csv".data ∧
    jsEndsWith (outFilePath "/".data "out/".data) ".csv".data = true :=
  ⟨(C10_outfile_path "/".data "out/".data).2.1 (by decide),
   (C10_outfile_path "/".data "data.csv".data).2.2.1 (by decide) (by decide),
   (C10_outfile_path "/".data "data".data).2.2.2 (by decide) (by decide),
   (C10_outfile_path "/".data "out/".data).1⟩

/-- C6: insertions and deletions are extracted independently from the
last diffstat line by matching a digit run immediately followed by the
given literal (the match exists exactly when such an occurrence exists in
the line), a missing match contributes 0 rather than an error, and the
claimed diffstat examples give changes 16 and 5. -/
theorem C6_changes_extraction (p0 : Char) (prest s : List Char)
    (hd : p0.isDigit = false) :
    ((findNumBefore (p0 :: prest) s).isSome = true ↔
      ∃ pre run rest, s = pre ++ (run ++ ((p0 :: prest) ++ rest)) ∧ run ≠ [] ∧
        ∀ x ∈ run, x.isDigit = true) ∧
    changesOfLine "3 files changed, 12 insertions(+), 4 deletions(-)".data = 16 ∧
    changesOfLine "1 file changed, 5 insertions(+)".data = 5 ∧
    ∀ line,
      (¬ ∃ pre run rest, line = pre ++ (run ++ ((p0 :: prest) ++ rest)) ∧ run ≠ [] ∧
          ∀ x ∈ run, x.isDigit = true) →
        (findNumBefore (p0 :: prest) line).getD 0 = 0 := by
  refine ⟨⟨findNumBefore_occurrence_of_isSome _ _, ?_⟩, by decide, by decide, ?_⟩
  · rintro ⟨pre, run, rest, rfl, hrun, hdig⟩
    exact findNumBefore_isSome_of_occurrence p0 prest hd pre run rest hrun hdig
  · intro line hno
    rcases hsome : findNumBefore (p0 :: prest) line with _ | n
    · rfl
    · exact absurd
        (findNumBefore_occurrence_of_isSome (p0 :: prest) line (by simp [hsome])) hno

/-- C6 witness: the two diffstat examples, via the theorem at the
`insertion` pattern. -/
theorem C6_changes_extraction_witness :
    changesOfLine "3 files changed, 12 insertions(+), 4 deletions(-)".data = 16 ∧
    changesOfLine "1 file changed, 5 insertions(+)".data = 5 :=
  ⟨(C6_changes_extraction ' ' "insertion".data [] (by decide)).2.1,
   (C6_changes_extraction ' ' "insertion".data [] (by decide)).2.2.1⟩

/-- C3 counterexample: two commits whose diffstat produced zero changes
give `totalChanges = 0`, so "totalChanges is nonzero whenever at least
two commits exist" is false and the percent division does divide by
zero. -/
theorem C3_zero_total_cex :
    2 ≤ ([⟨['a'], ['a'], [], 5, 0⟩, ⟨['b'], ['b'], [], 0, 0⟩] : List Commit).length ∧
    totalChanges [⟨['a'], ['a'], [], 5, 0⟩, ⟨['b'], ['b'], [], 0, 0⟩] = some 0 := by
  decide

/-- C3 amended: with at least one commit, `totalChanges` is the sum of
`changes` over all commits, and it is zero exactly when every commit has
zero changes — so the percent division is free of division by zero iff
some commit has nonzero changes, not merely whenever two commits exist. -/
theorem C3_total_changes (commits : List Commit) (h : commits ≠ []) :
    totalChanges commits = some (commits.map Commit.changes).sum ∧
    ((commits.map Commit.changes).sum = 0 ↔ ∀ c ∈ commits, c.changes = 0) := by
  constructor
  · match commits, h with
    | c :: rest, _ =>
      rw [totalChanges_cons, foldl_add_eq_sum, List.map_cons, List.sum_cons]
  · rw [List.sum_eq_zero_iff]
    constructor
    · intro hall c hc
      exact hall c.changes (List.mem_map_of_mem Commit.changes hc)
    · intro hall x hx
      obtain ⟨c, hc, rfl⟩ := List.mem_map.mp hx
      exact hall c hc

/-- C3 witness: the amended statement at a concrete two-commit list. -/
theorem C3_total_changes_witness :
    totalChanges [⟨['a'], ['a'], [], 5, 3⟩, ⟨['b'], ['b'], [], 0, 4⟩] =
      some (([⟨['a'], ['a'], [], 5, 3⟩, ⟨['b'], ['b'], [], 0, 4⟩] : List Commit).map
        Commit.changes).sum ∧
    ((([⟨['a'], ['a'], [], 5, 3⟩, ⟨['b'], ['b'], [], 0, 4⟩] : List Commit).map
        Commit.changes).sum = 0 ↔
      ∀ c ∈ ([⟨['a'], ['a'], [], 5, 3⟩, ⟨['b'], ['b'], [], 0, 4⟩] : List Commit),
        c.changes = 0) :=
  C3_total_changes [⟨['a'], ['a'], [], 5, 3⟩, ⟨['b'], ['b'], [], 0, 4⟩] (by decide)

/-- C4 counterexample: a blob whose first block has only four lines (no
diffstat line, as for an empty commit) aborts the entire parse — the
well-formed second block is lost too — because `stats.pop()` yields
`undefined` and `undefined.match` throws.  So a malformed line can abort
the whole parse, contrary to the claim. -/
theorem C4_short_block_aborts_cex :
    parseLog ".\n.a\nb\nc\nd\n.\n.h\ne@x\nm\n2020-01-01\n1 file changed, 2 insertions(+)".data
      = none ∧
    (parseBlock "h\ne@x\nm\n2020-01-01\n1 file changed, 2 insertions(+)".data).isSome
      = true := by
  decide

/-- C4 amended: a malformed line never aborts the parse as long as every
block still splits into at least five lines; then each field is computed
from its own line only, so a malformed line degrades only the field it
feeds (author falls back to the whole email when `@` is missing, changes
fall back to 0 on a non-matching diffstat).  A block with fewer than five
lines, however, aborts the entire parse. -/
theorem C4_malformed_lines (blob : List Char)
    (hfive : ∀ b ∈ blocksOf blob, 5 ≤ (jsSplit ['\n'] b).length) :
    (parseLog blob).isSome = true ∧
    ∀ block l0 l1 l2 l3 l4 rest,
      jsSplit ['\n'] block = l0 :: l1 :: l2 :: l3 :: l4 :: rest →
        parseBlock block =
          some ⟨l0, (jsSplit ['@'] l1).headD [], l2, l3,
            changesOfLine (lastOf l4 rest)⟩ := by
  constructor
  · rw [parseLog_eq_mapM]
    obtain ⟨bs, hbs, -, -⟩ :=
      mapM_isSome parseBlock (blocksOf blob) fun b hb =>
        parseBlock_isSome_of_five b (hfive b hb)
    rw [hbs]
    rfl
  · intro block l0 l1 l2 l3 l4 rest hsplit
    exact parseBlock_shape block l0 l1 l2 l3 l4 rest hsplit

/-- C4 witness: a blob with one block whose email has no `@`, whose date
is garbage and whose diffstat has no numbers still parses, with only the
affected fields defaulted. -/
theorem C4_malformed_lines_witness :
    (parseLog ".\n.h\nnoatsign\nmsg\nnotadate\ngarbage diffstat".data).isSome = true ∧
    parseBlock "h\nnoatsign\nmsg\nnotadate\ngarbage diffstat".data =
      some ⟨['h'], "noatsign".data, "msg".data, "notadate".data,
        changesOfLine (lastOf "garbage diffstat".data [])⟩ :=
  ⟨(C4_malformed_lines ".\n.h\nnoatsign\nmsg\nnotadate\ngarbage diffstat".data
      (by decide)).1,
   (C4_malformed_lines ".\n.h\nnoatsign\nmsg\nnotadate\ngarbage diffstat".data
      (by decide)).2 "h\nnoatsign\nmsg\nnotadate\ngarbage diffstat".data
      ['h'] "noatsign".data "msg".data "notadate".data "garbage diffstat".data []
      (by decide)⟩

/-- C5 counterexample: a nonempty blob whose single block is unparsable
(one line after the delimiter) makes the parser abort with a thrown
`TypeError` rather than return an empty sequence, so "a blob with no
parsable blocks yields an empty sequence" is false when a delimiter is
present. -/
theorem C5_unparsable_block_cex :
    parseLog ".\n.x".data = none ∧ parseLog ".\n.x".data ≠ some [] := by
  decide

/-- C5 amended: for a blob all of whose blocks parse, the parser yields
exactly one commit per block, in block order; an empty blob (and any blob
with no delimiter, hence zero blocks) yields the empty sequence; but a
blob containing a delimiter whose block fails to parse is an aborted
parse, not an empty result. -/
theorem C5_roundtrip (blob : List Char)
    (hok : ∀ b ∈ blocksOf blob, (parseBlock b).isSome = true) :
    (∃ cs, parseLog blob = some cs ∧ cs.length = (blocksOf blob).length ∧
      ∀ i, (hi : i < (blocksOf blob).length) → (hci : i < cs.length) →
        parseBlock ((blocksOf blob)[i]) = some (cs[i])) ∧
    parseLog [] = some [] := by
  refine ⟨?_, by decide⟩
  rw [parseLog_eq_mapM]
  exact mapM_isSome parseBlock (blocksOf blob) hok

/-- C5 witness: a concrete two-block blob parses to exactly two commits
in block order. -/
theorem C5_roundtrip_witness :
    (∃ cs, parseLog ".\n.h1\na@x\nm1\nt1\n1 file changed, 2 insertions(+)\n.\n.h2\nb@y\nm2\nt2\n1 file changed, 3 deletions(-)".data
        = some cs ∧
      cs.length =
        (blocksOf ".\n.h1\na@x\nm1\nt1\n1 file changed, 2 insertions(+)\n.\n.h2\nb@y\nm2\nt2\n1 file changed, 3 deletions(-)".data).length ∧
      ∀ i,
        (hi : i <
          (blocksOf ".\n.h1\na@x\nm1\nt1\n1 file changed, 2 insertions(+)\n.\n.h2\nb@y\nm2\nt2\n1 file changed, 3 deletions(-)".data).length) →
        (hci : i < cs.length) →
          parseBlock
            ((blocksOf ".\n.h1\na@x\nm1\nt1\n1 file changed, 2 insertions(+)\n.\n.h2\nb@y\nm2\nt2\n1 file changed, 3 deletions(-)".data)[i])
            = some (cs[i])) ∧
    parseLog [] = some [] :=
  C5_roundtrip
    ".\n.h1\na@x\nm1\nt1\n1 file changed, 2 insertions(+)\n.\n.h2\nb@y\nm2\nt2\n1 file changed, 3 deletions(-)".data
    (by decide)

/-- C8 counterexample: with both display modes requested, a failing log
retrieval terminates the run with `LogUnavailable`, not
`ConflictingOptions`; and with a retrievable log the executed steps are
retrieval, then parsing, then the conflict check — so the conflict check
does not precede log retrieval or parsing. -/
theorem C8_check_order_cex :
    (runProgram ⟨true, true, false⟩ none).2 = Except.error RunError.LogUnavailable ∧
    (runProgram ⟨true, true, false⟩ (some ".\n.h\ne\nm\nt\ns".data)).1 =
      [Step.retrieveLog, Step.parseStep, Step.conflictCheck] :=
  ⟨rfl, rfl⟩

/-- C8 amended: whenever both mutually exclusive modes are requested and
log retrieval and parsing succeed, the run terminates with
`ConflictingOptions` before the CSV branch, the history check and any
statistics computation — the conflict check precedes all later
computation, but follows log retrieval and raw-log parsing. -/
theorem C8_conflict_before_stats (cfg : Config) (blob : List Char)
    (commits : List ParsedCommit)
    (hv : cfg.verbose = true) (hc : cfg.concise = true)
    (hp : parseLog blob = some commits) :
    runProgram cfg (some blob) =
      ([Step.retrieveLog, Step.parseStep, Step.conflictCheck],
        Except.error RunError.ConflictingOptions) := by
  show runAfterParse cfg (parseLog blob) = _
  rw [hp]
  simp [runAfterParse, hv, hc]

/-- C8 witness: the amended statement at a concrete configuration and
blob. -/
theorem C8_conflict_before_stats_witness :
    runProgram ⟨true, true, false⟩ (some ".\n.h\ne\nm\nt\ns".data) =
      ([Step.retrieveLog, Step.parseStep, Step.conflictCheck],
        Except.error RunError.ConflictingOptions) :=
  C8_conflict_before_stats ⟨true, true, false⟩ ".\n.h\ne\nm\nt\ns".data
    [⟨['h'], ['e'], ['m'], ['t'], 0⟩] rfl rfl (by decide)

/-- C2 counterexample: two commits, both timestamps inside the valid
JavaScript `Date` range (magnitude at most 8.64e15 ms), whose signed
difference is exactly `MIN_SAFE_INTEGER`: the strict update guard
`difference > maxDifference.difference` never fires, so `maxDifference`
is not the pair with the largest signed difference — it keeps the
sentinel with `null` commit references. -/
theorem C2_sentinel_cex :
    2 ≤ ([⟨['a'], ['a'], [], -8640000000000000, 0⟩,
        ⟨['b'], ['b'], [], 367199254740991, 0⟩] : List Commit).length ∧
    adjacentDiffs [⟨['a'], ['a'], [], -8640000000000000, 0⟩,
        ⟨['b'], ['b'], [], 367199254740991, 0⟩] = [MIN_SAFE_INTEGER] ∧
    (scanCommits 10 [⟨['a'], ['a'], [], -8640000000000000, 0⟩,
        ⟨['b'], ['b'], [], 367199254740991, 0⟩]).maxDifference =
      ⟨MIN_SAFE_INTEGER, none, none⟩ := by
  decide

/-- C2 amended: the engine computes one signed difference per adjacent
pair in original log order (`timestamp[i] - timestamp[i+1]`, sign
preserved, commits never re-sorted), and provided every difference lies
strictly between `MIN_SAFE_INTEGER` and `MAX_SAFE_INTEGER` (always the
case for realistic histories), `maxDifference` / `minDifference` are the
first-encountered adjacent pairs attaining the largest / smallest signed
difference, retaining references to the two commits involved.  A
difference at or below `MIN_SAFE_INTEGER` (resp. at or above
`MAX_SAFE_INTEGER`) can instead leave the corresponding sentinel in
place. -/
theorem C2_adjacent_extremes (t : Nat) (commits : List Commit)
    (h2 : 2 ≤ commits.length)
    (hlo : ∀ d ∈ adjacentDiffs commits, MIN_SAFE_INTEGER < d)
    (hhi : ∀ d ∈ adjacentDiffs commits, d < MAX_SAFE_INTEGER) :
    (scanCommits t commits).timeDifferences = adjacentDiffs commits ∧
    (∃ i, ∃ hi : i + 1 < commits.length,
      (scanCommits t commits).maxDifference =
        ⟨(commits[i]).timestamp - (commits[i + 1]).timestamp,
          some (commits[i]), some (commits[i + 1])⟩ ∧
      (∀ d ∈ adjacentDiffs commits,
        d ≤ (commits[i]).timestamp - (commits[i + 1]).timestamp) ∧
      ∀ j, (hj : j + 1 < commits.length) → j < i →
        (commits[j]).timestamp - (commits[j + 1]).timestamp <
          (commits[i]).timestamp - (commits[i + 1]).timestamp) ∧
    (∃ i, ∃ hi : i + 1 < commits.length,
      (scanCommits t commits).minDifference =
        ⟨(commits[i]).timestamp - (commits[i + 1]).timestamp,
          some (commits[i]), some (commits[i + 1])⟩ ∧
      (∀ d ∈ adjacentDiffs commits,
        (commits[i]).timestamp - (commits[i + 1]).timestamp ≤ d) ∧
      ∀ j, (hj : j + 1 < commits.length) → j < i →
        (commits[i]).timestamp - (commits[i + 1]).timestamp <
          (commits[j]).timestamp - (commits[j + 1]).timestamp) := by
  have hplen : (adjacentPairs commits).length = commits.length - 1 :=
    adjacentPairs_length commits
  have hpne : 0 < (adjacentPairs commits).length := by omega
  have hmem : ∀ p ∈ adjacentPairs commits, pairDiff p ∈ adjacentDiffs commits := by
    intro p hp
    rw [adjacentDiffs_eq_map]
    exact List.mem_map_of_mem pairDiff hp
  refine ⟨?_, ?_, ?_⟩
  · rw [scanCommits, scanGo_timeDifferences]
    simp [initialState]
  · have hmax : (scanCommits t commits).maxDifference =
        List.foldl maxUpd ⟨MIN_SAFE_INTEGER, none, none⟩ (adjacentPairs commits) := by
      rw [scanCommits, scanGo_max]
      rfl
    have hex : ∃ p ∈ adjacentPairs commits,
        (⟨MIN_SAFE_INTEGER, none, none⟩ : CTD).difference < pairDiff p :=
      ⟨(adjacentPairs commits)[0], List.getElem_mem hpne,
        hlo _ (hmem _ (List.getElem_mem hpne))⟩
    obtain ⟨i, hi, heq, -, hub, hfirst⟩ :=
      foldl_maxUpd_spec (adjacentPairs commits) _ hex
    obtain ⟨hi1, hpi⟩ := adjacentPairs_getElem commits i hi
    refine ⟨i, hi1, ?_, ?_, ?_⟩
    · rw [hmax, heq, hpi]
      simp [pairDiff]
    · intro d hd
      rw [adjacentDiffs_eq_map] at hd
      obtain ⟨p, hp, rfl⟩ := List.mem_map.mp hd
      have h := hub p hp
      rw [hpi] at h
      simpa [pairDiff] using h
    · intro j hj hji
      have hjp : j < (adjacentPairs commits).length := by omega
      have h := hfirst j hjp hji
      obtain ⟨hj1, hpj⟩ := adjacentPairs_getElem commits j hjp
      rw [hpj, hpi] at h
      simpa [pairDiff] using h
  · have hmin : (scanCommits t commits).minDifference =
        List.foldl minUpd ⟨MAX_SAFE_INTEGER, none, none⟩ (adjacentPairs commits) := by
      rw [scanCommits, scanGo_min]
      rfl
    have hex : ∃ p ∈ adjacentPairs commits,
        pairDiff p < (⟨MAX_SAFE_INTEGER, none, none⟩ : CTD).difference :=
      ⟨(adjacentPairs commits)[0], List.getElem_mem hpne,
        hhi _ (hmem _ (List.getElem_mem hpne))⟩
    obtain ⟨i, hi, heq, -, hub, hfirst⟩ :=
      foldl_minUpd_spec (adjacentPairs commits) _ hex
    obtain ⟨hi1, hpi⟩ := adjacentPairs_getElem commits i hi
    refine ⟨i, hi1, ?_, ?_, ?_⟩
    · rw [hmin, heq, hpi]
      simp [pairDiff]
    · intro d hd
      rw [adjacentDiffs_eq_map] at hd
      obtain ⟨p, hp, rfl⟩ := List.mem_map.mp hd
      have h := hub p hp
      rw [hpi] at h
      simpa [pairDiff] using h
    · intro j hj hji
      have hjp : j < (adjacentPairs commits).length := by omega
      have h := hfirst j hjp hji
      obtain ⟨hj1, hpj⟩ := adjacentPairs_getElem commits j hjp
      rw [hpj, hpi] at h
      simpa [pairDiff] using h

/-- C2 witness: the per-pair signed differences of a concrete three-commit
sequence, in log order, via the amended theorem. -/
theorem C2_adjacent_extremes_witness :
    (scanCommits 10 [⟨['x'], ['x'], [], 5, 0⟩, ⟨['y'], ['y'], [], 1, 0⟩,
        ⟨['z'], ['z'], [], 4, 0⟩]).timeDifferences =
      adjacentDiffs [⟨['x'], ['x'], [], 5, 0⟩, ⟨['y'], ['y'], [], 1, 0⟩,
        ⟨['z'], ['z'], [], 4, 0⟩] :=
  (C2_adjacent_extremes 10
    [⟨['x'], ['x'], [], 5, 0⟩, ⟨['y'], ['y'], [], 1, 0⟩, ⟨['z'], ['z'], [], 4, 0⟩]
    (by decide) (by decide) (by decide)).1

/-- C9 counterexample: two commits with valid `Date`-range timestamps
whose difference is exactly `MAX_SAFE_INTEGER`: the strict guard
`difference < minDifference.difference` never fires, so after the pass
`minDifference` still holds the sentinel with `null` commit references,
and the report's dereference of them would fail. -/
theorem C9_sentinel_cex :
    2 ≤ ([⟨['a'], ['a'], [], 8640000000000000, 0⟩,
        ⟨['b'], ['b'], [], -367199254740991, 0⟩] : List Commit).length ∧
    (scanCommits 10 [⟨['a'], ['a'], [], 8640000000000000, 0⟩,
        ⟨['b'], ['b'], [], -367199254740991, 0⟩]).minDifference =
      ⟨MAX_SAFE_INTEGER, none, none⟩ := by
  decide

/-- C9 amended: after the pass, `maxDifference` holds references to an
actual adjacent pair of the sequence provided some adjacent difference
exceeds `MIN_SAFE_INTEGER`, and `minDifference` does provided some
adjacent difference is below `MAX_SAFE_INTEGER`; only then is the
report's dereference of `firstCommit` / `secondCommit` safe. -/
theorem C9_extremes_nonnull (t : Nat) (commits : List Commit)
    (hex1 : ∃ d ∈ adjacentDiffs commits, MIN_SAFE_INTEGER < d)
    (hex2 : ∃ d ∈ adjacentDiffs commits, d < MAX_SAFE_INTEGER) :
    (∃ i, ∃ hi : i + 1 < commits.length,
      (scanCommits t commits).maxDifference.firstCommit =
        some (commits[i]) ∧
      (scanCommits t commits).maxDifference.secondCommit =
        some (commits[i + 1])) ∧
    ∃ i, ∃ hi : i + 1 < commits.length,
      (scanCommits t commits).minDifference.firstCommit =
        some (commits[i]) ∧
      (scanCommits t commits).minDifference.secondCommit =
        some (commits[i + 1]) := by
  constructor
  · have hmax : (scanCommits t commits).maxDifference =
        List.foldl maxUpd ⟨MIN_SAFE_INTEGER, none, none⟩ (adjacentPairs commits) := by
      rw [scanCommits, scanGo_max]
      rfl
    obtain ⟨d, hd, hdlt⟩ := hex1
    rw [adjacentDiffs_eq_map] at hd
    obtain ⟨p, hp, rfl⟩ := List.mem_map.mp hd
    obtain ⟨i, hi, heq, -, -, -⟩ :=
      foldl_maxUpd_spec (adjacentPairs commits) ⟨MIN_SAFE_INTEGER, none, none⟩
        ⟨p, hp, hdlt⟩
    obtain ⟨hi1, hpi⟩ := adjacentPairs_getElem commits i hi
    refine ⟨i, hi1, ?_, ?_⟩
    · rw [hmax, heq, hpi]
    · rw [hmax, heq, hpi]
  · have hmin : (scanCommits t commits).minDifference =
        List.foldl minUpd ⟨MAX_SAFE_INTEGER, none, none⟩ (adjacentPairs commits) := by
      rw [scanCommits, scanGo_min]
      rfl
    obtain ⟨d, hd, hdlt⟩ := hex2
    rw [adjacentDiffs_eq_map] at hd
    obtain ⟨p, hp, rfl⟩ := List.mem_map.mp hd
    obtain ⟨i, hi, heq, -, -, -⟩ :=
      foldl_minUpd_spec (adjacentPairs commits) ⟨MAX_SAFE_INTEGER, none, none⟩
        ⟨p, hp, hdlt⟩
    obtain ⟨hi1, hpi⟩ := adjacentPairs_getElem commits i hi
    refine ⟨i, hi1, ?_, ?_⟩
    · rw [hmin, heq, hpi]
    · rw [hmin, heq, hpi]

/-- C9 witness: both extreme trackers reference adjacent commits of a
concrete two-commit sequence. -/
theorem C9_extremes_nonnull_witness :
    (∃ i, ∃ hi : i + 1 <
        ([⟨['x'], ['x'], [], 7, 0⟩, ⟨['y'], ['y'], [], 2, 0⟩] : List Commit).length,
      (scanCommits 10 [⟨['x'], ['x'], [], 7, 0⟩,
          ⟨['y'], ['y'], [], 2, 0⟩]).maxDifference.firstCommit =
        some (([⟨['x'], ['x'], [], 7, 0⟩, ⟨['y'], ['y'], [], 2, 0⟩] :
          List Commit)[i]) ∧
      (scanCommits 10 [⟨['x'], ['x'], [], 7, 0⟩,
          ⟨['y'], ['y'], [], 2, 0⟩]).maxDifference.secondCommit =
        some (([⟨['x'], ['x'], [], 7, 0⟩, ⟨['y'], ['y'], [], 2, 0⟩] :
          List Commit)[i + 1])) ∧
    ∃ i, ∃ hi : i + 1 <
        ([⟨['x'], ['x'], [], 7, 0⟩, ⟨['y'], ['y'], [], 2, 0⟩] : List Commit).length,
      (scanCommits 10 [⟨['x'], ['x'], [], 7, 0⟩,
          ⟨['y'], ['y'], [], 2, 0⟩]).minDifference.firstCommit =
        some (([⟨['x'], ['x'], [], 7, 0⟩, ⟨['y'], ['y'], [], 2, 0⟩] :
          List Commit)[i]) ∧
      (scanCommits 10 [⟨['x'], ['x'], [], 7, 0⟩,
          ⟨['y'], ['y'], [], 2, 0⟩]).minDifference.secondCommit =
        some (([⟨['x'], ['x'], [], 7, 0⟩, ⟨['y'], ['y'], [], 2, 0⟩] :
          List Commit)[i + 1]) :=
  C9_extremes_nonnull 10 [⟨['x'], ['x'], [], 7, 0⟩, ⟨['y'], ['y'], [], 2, 0⟩]
    (by decide) (by decide)

/-- C1: the code's median at the failing input.  The claim requires the
differences to be sorted ascending numerically; `timeDifferences.sort()`
passes no comparator, so JavaScript sorts by stringified value, and on
the differences 9, 10, 100 the sorted order is 10, 100, 9, making the
code's median 100 where the claimed numeric-sort median is 10.  On the
claim's own example 10, 20, 30, 40 the two orders coincide and the code
does return 25 with the `midpoint = ceil(n/2)` convention. -/
theorem C1_median_code_eval :
    medianCommitTime [10, 20, 30, 40] = 25 ∧
    medianPerSpec [10, 20, 30, 40] = 25 ∧
    sortBy jsDefaultLt [9, 10, 100] = [10, 100, 9] ∧
    medianCommitTime [9, 10, 100] = 100 ∧
    medianPerSpec [9, 10, 100] = 10 := by
  refine ⟨?_, ?_, by decide, ?_, ?_⟩
  · have h : sortBy jsDefaultLt [10, 20, 30, 40] = [10, 20, 30, 40] := by decide
    rw [medianCommitTime, h]
    norm_num [medianOf, List.getD]
  · have h : sortBy intLt [10, 20, 30, 40] = [10, 20, 30, 40] := by decide
    rw [medianPerSpec, h]
    norm_num [medianOf, List.getD]
  · have h : sortBy jsDefaultLt [9, 10, 100] = [10, 100, 9] := by decide
    rw [medianCommitTime, h]
    norm_num [medianOf, List.getD]
  · have h : sortBy intLt [9, 10, 100] = [9, 10, 100] := by decide
    rw [medianPerSpec, h]
    norm_num [medianOf, List.getD]

end Cscan
